import Mathlib

/-!
Verification of the duplicate-history cleaner in
`src/simple_history/management/commands/clean_duplicate_history.py`.

The command's `_process` method builds, per history model, a raw SQL query

    SELECT history_id FROM (
        SELECT history_id, id,
               f as field_i,
               LEAD(f) OVER (PARTITION BY id ORDER BY history_date DESC) as history_i, ...
        FROM table WHERE id >= %s AND id < %s) AS sub_table
    WHERE field_0 = history_0 OR (field_0 is NULL AND history_0 is NULL)
      AND field_1 = history_1 OR (field_1 is NULL AND history_1 is NULL) AND ...

and then, in blocks of `step_size = 10**5` over the entity-id space, collects the
selected `history_id`s (`listy`), accumulates their count, and unless `dry_run`
deletes `m_qs.filter(pk__in=listy)`.

The embedding below models one history table as a list of `VersionRecord`s and
translates the generated SQL faithfully, including:
  * SQL three-valued logic (`SqlBool`), since the tracked field values are
    nullable and `field = history` is UNKNOWN when either side is NULL;
  * the operator precedence of the generated WHERE clause: the per-field
    segments `E_i OR (N_i)` are joined by bare `AND`, and SQL's AND binds
    tighter than OR, so the clause parses as
    `E_0 OR (N_0 AND E_1) OR (N_1 AND E_2) OR ... OR N_{k-1}`;
  * `LEAD` yielding NULL for every aliased field at the last row of a
    partition (the row with no older neighbor);
  * Django's `QuerySet.raw` executing the given SQL directly, so the
    `history_date__gte` filter held by `m_qs` does NOT restrict the raw
    detection query (it does restrict `count()`, `aggregate(Max('id'))`
    and the final `filter(pk__in=listy).delete()`).

The SQL `ORDER BY history_date DESC` leaves ties unspecified; following the
store's documented ordering `('-history_date', '-history_id')` the embedding
breaks ties by `history_id` descending, which is what every claim presupposes.
Timestamps are modelled as naturals.
-/

namespace CleanDuplicateHistory

/-- One row of a history table: `id` (entity id), `history_id` (unique row id),
`history_date` (timestamp), and the tracked data fields (the model's fields
minus the metadata fields `id, history_id, history_date,
history_change_reason, history_type, history_user`), in declaration order,
each nullable. -/
structure VersionRecord where
  entity_id : Nat
  history_id : Nat
  history_date : Nat
  fields : List (Option Nat)
deriving DecidableEq, Repr

/-- SQL three-valued truth values. -/
inductive SqlBool
  | tt
  | ff
  | unk
deriving DecidableEq, Repr

/-- SQL OR on three-valued booleans. -/
def sqlOr : SqlBool → SqlBool → SqlBool
  | .tt, _ => .tt
  | _, .tt => .tt
  | .ff, .ff => .ff
  | _, _ => .unk

/-- SQL AND on three-valued booleans. -/
def sqlAnd : SqlBool → SqlBool → SqlBool
  | .ff, _ => .ff
  | _, .ff => .ff
  | .tt, .tt => .tt
  | _, _ => .unk

/-- SQL equality `a = b` on nullable values: UNKNOWN if either side is NULL. -/
def sqlEq : Option Nat → Option Nat → SqlBool
  | some x, some y => if x = y then .tt else .ff
  | _, _ => .unk

/-- SQL `a IS NULL AND b IS NULL` (never UNKNOWN). -/
def bothNull (a b : Option Nat) : SqlBool :=
  if a = none ∧ b = none then .tt else .ff

/-- The OR-operands contributed by the tail of the generated WHERE clause:
for pairs `(a_i, b_i), (a_{i+1}, b_{i+1}), ...` the operands
`N_i AND E_{i+1}`, ending in the bare `N_{k-1}` (as forced by SQL's
AND-over-OR precedence on the clause the source joins with " AND "). -/
def dupTail : List (Option Nat × Option Nat) → List SqlBool
  | [] => []
  | [(a, b)] => [bothNull a b]
  | (a, b) :: (a2, b2) :: rest => sqlAnd (bothNull a b) (sqlEq a2 b2) :: dupTail ((a2, b2) :: rest)

/-- All OR-operands of the parsed WHERE clause: `E_0` followed by the tail. -/
def dupDisjuncts : List (Option Nat × Option Nat) → List SqlBool
  | [] => []
  | (a, b) :: rest => sqlEq a b :: dupTail ((a, b) :: rest)

/-- Three-valued disjunction of a list of operands. -/
def orList (l : List SqlBool) : SqlBool := l.foldr sqlOr .ff

/-- Whether the generated WHERE clause is TRUE for a row with field values `a`
whose per-field LEAD values are `b` (SQL WHERE keeps exactly the TRUE rows). -/
def whereTrue (a b : List (Option Nat)) : Bool :=
  orList (dupDisjuncts (a.zip b)) == SqlBool.tt

/-- The LEAD values of a row `r` whose successors inside its partition are
`rest`: the next row's fields, or all-NULL when `r` has no older neighbor. -/
def leadFieldsFor (r : VersionRecord) (rest : List VersionRecord) : List (Option Nat) :=
  match rest with
  | [] => r.fields.map fun _ => none
  | s :: _ => s.fields

/-- The `history_id`s a single partition (already sorted newest-first)
contributes to the raw query's result set. -/
def partitionDupIds : List VersionRecord → List Nat
  | [] => []
  | r :: rest =>
      (if whereTrue r.fields (leadFieldsFor r rest) then [r.history_id] else []) ++
        partitionDupIds rest

/-- Strict "a sorts before b" for `ORDER BY history_date DESC`, ties broken by
`history_id` descending (the store's documented ordering). -/
def newerThan (a b : VersionRecord) : Bool :=
  b.history_date < a.history_date ||
    (a.history_date == b.history_date && b.history_id < a.history_id)

/-- Insertion step of the newest-first sort. -/
def insertDesc (r : VersionRecord) : List VersionRecord → List VersionRecord
  | [] => [r]
  | s :: rest => if newerThan r s then r :: s :: rest else s :: insertDesc r rest

/-- Newest-first insertion sort of a partition. -/
def sortDesc : List VersionRecord → List VersionRecord
  | [] => []
  | r :: rest => insertDesc r (sortDesc rest)

/-- The rows selected by the raw query's `WHERE id >= lo AND id < hi`. -/
def rangeRows (tbl : List VersionRecord) (lo hi : Nat) : List VersionRecord :=
  tbl.filter fun r => decide (lo ≤ r.entity_id) && decide (r.entity_id < hi)

/-- The distinct keys of a list (each key kept once). -/
def dedupKeys : List Nat → List Nat
  | [] => []
  | e :: rest => if e ∈ dedupKeys rest then dedupKeys rest else e :: dedupKeys rest

/-- The result set of the raw duplicate-detection query over the half-open
entity-id range `[lo, hi)`: per partition (entity), rows whose WHERE clause is
TRUE against their LEAD values in newest-first order. This is `listy` in the
source. -/
def rawQueryIds (tbl : List VersionRecord) (lo hi : Nat) : List Nat :=
  let rows := rangeRows tbl lo hi
  (dedupKeys (rows.map fun r => r.entity_id)).flatMap fun e =>
    partitionDupIds (sortDesc (rows.filter fun r => decide (r.entity_id = e)))

/-- Whether a row passes the `history_date__gte=stop_date` filter held by
`m_qs` (vacuously true when no cutoff was requested). -/
def inWindow (cutoff : Option Nat) (r : VersionRecord) : Bool :=
  match cutoff with
  | none => true
  | some t => decide (t ≤ r.history_date)

/-- The rows of the (possibly date-filtered) queryset `m_qs`. -/
def filteredRows (tbl : List VersionRecord) (cutoff : Option Nat) : List VersionRecord :=
  tbl.filter (inWindow cutoff)

/-- `m_qs.aggregate(Max('id'))`: the largest entity id among the given rows. -/
def maxEntityId (rows : List VersionRecord) : Nat :=
  rows.foldr (fun r m => max r.entity_id m) 0

/-- The source's hard-coded `step_size = 10**5`. -/
def stepSize : Nat := 100000

/-- `int(math.ceil(max_id / step_size))` on naturals. -/
def maxIterations (maxId step : Nat) : Nat := (maxId + step - 1) / step

/-- `m_qs.filter(pk__in=listy).delete()`: removes exactly the rows whose
`history_id` is listed AND which pass `m_qs`'s date filter. -/
def deleteRows (tbl : List VersionRecord) (cutoff : Option Nat) (ids : List Nat) :
    List VersionRecord :=
  tbl.filter fun r => !(decide (r.history_id ∈ ids) && inWindow cutoff r)

/-- One iteration of the block loop: run the raw query on the current table
over `[x*step, (x+1)*step)`, add `len(listy)` to the running count, and unless
`dry_run` delete the listed rows through the filtered queryset. -/
def batchStep (cutoff : Option Nat) (dryRun : Bool) (step : Nat)
    (st : List VersionRecord × Nat) (x : Nat) : List VersionRecord × Nat :=
  let listy := rawQueryIds st.1 (x * step) ((x + 1) * step)
  (if dryRun then st.1 else deleteRows st.1 cutoff listy, st.2 + listy.length)

/-- `_process` for one history model: if the (date-filtered) queryset is empty
the model is skipped, otherwise the block loop runs for
`x in range(0, max_iterations + 1)`; returns the final table together with the
reported `entries_deleted` count. -/
def runModel (tbl : List VersionRecord) (cutoff : Option Nat) (dryRun : Bool) (step : Nat) :
    List VersionRecord × Nat :=
  let m := filteredRows tbl cutoff
  if m.length = 0 then (tbl, 0)
  else
    (List.range (maxIterations (maxEntityId m) step + 1)).foldl
      (batchStep cutoff dryRun step) (tbl, 0)

/-- The full candidate sequence of a dry run: the concatenation of `listy`
across all blocks (in dry mode the table never changes, so each block's raw
query runs against the original table). -/
def detectDuplicates (tbl : List VersionRecord) (cutoff : Option Nat) (step : Nat) :
    List Nat :=
  let m := filteredRows tbl cutoff
  if m.length = 0 then []
  else
    (List.range (maxIterations (maxEntityId m) step + 1)).flatMap fun x =>
      rawQueryIds tbl (x * step) ((x + 1) * step)

/-- The accumulated candidate ids of the first `n` blocks, all computed
against one fixed table (as a dry run does). -/
def delIdsUpTo (tbl : List VersionRecord) (step n : Nat) : List Nat :=
  (List.range n).flatMap fun x => rawQueryIds tbl (x * step) ((x + 1) * step)

/-- The block loop with an environment-failure oracle: the body
`with transaction.atomic(savepoint=True): ...` has no exception handler, so a
failing block rolls back its own work and the exception propagates out of
`_process`, carrying no count; prior blocks' commits remain. -/
def runBatchesExc (cutoff : Option Nat) (dryRun : Bool) (step : Nat) (fails : Nat → Bool) :
    List Nat → List VersionRecord × Nat →
      Except (Nat × List VersionRecord) (List VersionRecord × Nat)
  | [], st => .ok st
  | x :: xs, st =>
      if fails x then .error (x, st.1)
      else runBatchesExc cutoff dryRun step fails xs (batchStep cutoff dryRun step st x)

/-- `_process` for one model under the failure oracle. -/
def runModelExc (tbl : List VersionRecord) (cutoff : Option Nat) (dryRun : Bool) (step : Nat)
    (fails : Nat → Bool) : Except (Nat × List VersionRecord) (List VersionRecord × Nat) :=
  let m := filteredRows tbl cutoff
  if m.length = 0 then .ok (tbl, 0)
  else runBatchesExc cutoff dryRun step fails
    (List.range (maxIterations (maxEntityId m) step + 1)) (tbl, 0)

/-- The sequence of half-open id ranges the block loop visits for a given
maximal entity id: `[x*step, (x+1)*step)` for `x in range(max_iterations+1)`. -/
def planRanges (maxId step : Nat) : List (Nat × Nat) :=
  (List.range (maxIterations maxId step + 1)).map fun x => (x * step, (x + 1) * step)

/-- The batch plan actually executed for a table: empty when the queryset has
no rows (the source's `if not found: continue`). -/
def planOf (tbl : List VersionRecord) (cutoff : Option Nat) (step : Nat) :
    List (Nat × Nat) :=
  let m := filteredRows tbl cutoff
  if m.length = 0 then [] else planRanges (maxEntityId m) step

/-- Table for C1: entity 1 has two field-identical versions (id 2 newer than
id 1); entity 2 has a single version whose only tracked field is NULL. -/
def tblC1 : List VersionRecord :=
  [⟨1, 2, 2, [some 5]⟩, ⟨1, 1, 1, [some 5]⟩, ⟨2, 3, 1, [none]⟩]

/-- Table for C2: two versions of entity 1 agreeing on the first tracked field
but differing in the second, so each is a maximal field-identical run of one. -/
def tblC2 : List VersionRecord :=
  [⟨1, 2, 2, [some 1, some 2]⟩, ⟨1, 1, 1, [some 1, some 3]⟩]

/-- Table for C3: a single entity whose only (hence oldest) version has every
tracked field NULL. -/
def tblC3 : List VersionRecord := [⟨1, 1, 1, [none]⟩]

/-- Table for C4: the spec's fixture, entity 7 with versions newest-first
V5: state X, V4: state X, V3: state Y, V2: state Y, V1: state Y, states encoded
as a single tracked field (X = 10, Y = 20). -/
def tblC4 : List VersionRecord :=
  [⟨7, 5, 5, [some 10]⟩, ⟨7, 4, 4, [some 10]⟩, ⟨7, 3, 3, [some 20]⟩,
   ⟨7, 2, 2, [some 20]⟩, ⟨7, 1, 1, [some 20]⟩]

/-- Table for C5: five versions of one entity with two tracked fields, newest
first (1,NULL), (2,5), (2,NULL), (3,NULL), (7,8). No two ADJACENT versions are
field-identical, yet the first run deletes ids 4 and 3 and the second run then
deletes id 5. -/
def tblC5 : List VersionRecord :=
  [⟨1, 5, 5, [some 1, none]⟩, ⟨1, 4, 4, [some 2, some 5]⟩, ⟨1, 3, 3, [some 2, none]⟩,
   ⟨1, 2, 2, [some 3, none]⟩, ⟨1, 1, 1, [some 7, some 8]⟩]

/-- Table for C6: entity 1 with a field-identical pair (ids 2 and 1) recorded
before the cutoff 5 and one later distinct version (id 3). -/
def tblC6 : List VersionRecord :=
  [⟨1, 3, 10, [some 10]⟩, ⟨1, 2, 2, [some 20]⟩, ⟨1, 1, 1, [some 20]⟩]

/-- Table for C7: like tblC6 with different field values; only id 3 lies inside
the cutoff-5 window. -/
def tblC7 : List VersionRecord :=
  [⟨1, 3, 10, [some 11]⟩, ⟨1, 2, 2, [some 22]⟩, ⟨1, 1, 1, [some 22]⟩]

/-- Table for C9: a field-identical pair of entity 1 (block 0) and one of
entity 100001 (block 1). -/
def tblC9 : List VersionRecord :=
  [⟨1, 1, 1, [some 5]⟩, ⟨1, 2, 2, [some 5]⟩,
   ⟨100001, 3, 1, [some 6]⟩, ⟨100001, 4, 2, [some 6]⟩]

/-- Table for the C6 witness: a plain field-identical pair. -/
def tblW6 : List VersionRecord := [⟨1, 2, 2, [some 5]⟩, ⟨1, 1, 1, [some 5]⟩]

/-- Table for the C9 witness: a single version. -/
def tblW9 : List VersionRecord := [⟨1, 1, 1, [some 5]⟩]

/-- Table for the C10 witness: two entities, one of them duplicated. -/
def tblW10 : List VersionRecord :=
  [⟨1, 2, 2, [some 5]⟩, ⟨1, 1, 1, [some 5]⟩, ⟨2, 3, 1, [some 6]⟩]

/-! ### Helper lemmas about the three-valued WHERE clause -/

theorem sqlOr_eq_tt {a b : SqlBool} : sqlOr a b = .tt ↔ a = .tt ∨ b = .tt := by
  cases a <;> cases b <;> simp [sqlOr]

theorem orList_nil : orList [] = .ff := rfl

theorem orList_cons (a : SqlBool) (l : List SqlBool) :
    orList (a :: l) = sqlOr a (orList l) := rfl

theorem orList_eq_tt {l : List SqlBool} : orList l = .tt ↔ ∃ x ∈ l, x = .tt := by
  induction l with
  | nil => simp [orList_nil]
  | cons a l ih =>
    rw [orList_cons, sqlOr_eq_tt, ih]
    constructor
    · rintro (h | ⟨x, hx, hxt⟩)
      · exact ⟨a, List.mem_cons_self a l, h⟩
      · exact ⟨x, List.mem_cons_of_mem a hx, hxt⟩
    · rintro ⟨x, hx, hxt⟩
      rcases List.mem_cons.mp hx with h | h
      · exact Or.inl (h ▸ hxt)
      · exact Or.inr ⟨x, h, hxt⟩

theorem sqlEq_none_right (a : Option Nat) : sqlEq a none = .unk := by
  cases a <;> rfl

/-- A row whose fields equal its LEAD fields is always selected: the first
index at which the common field list is non-null makes `E_i` (or `N_{i-1} AND
E_i`) TRUE, and an all-null list makes the final `N_{k-1}` TRUE. -/
theorem whereTrue_refl (a : List (Option Nat)) (h : a ≠ []) : whereTrue a a = true := by
  induction a with
  | nil => exact absurd rfl h
  | cons x rest ih =>
    cases rest with
    | nil =>
      cases x <;>
        simp [whereTrue, List.zip_cons_cons, dupDisjuncts, dupTail, orList_cons, orList_nil,
          sqlEq, bothNull, sqlOr]
    | cons y rest2 =>
      have ihy := ih (by simp)
      simp only [whereTrue, List.zip_cons_cons, dupDisjuncts, dupTail, beq_iff_eq,
        orList_eq_tt] at ihy ⊢
      rcases ihy with ⟨z, hz, hztt⟩
      rcases List.mem_cons.mp hz with hz1 | hz2
      · subst hz1
        cases x with
        | some v =>
          exact ⟨sqlEq (some v) (some v), List.mem_cons_self _ _, by simp [sqlEq]⟩
        | none =>
          refine ⟨sqlAnd (bothNull none none) (sqlEq y y),
            List.mem_cons_of_mem _ (List.mem_cons_self _ _), ?_⟩
          rw [hztt]
          rfl
      · cases x with
        | some v =>
          exact ⟨sqlEq (some v) (some v), List.mem_cons_self _ _, by simp [sqlEq]⟩
        | none =>
          exact ⟨z, List.mem_cons_of_mem _ (List.mem_cons_of_mem _ hz2), hztt⟩

/-- Against the all-NULL LEAD of a partition-last row, the clause is TRUE
exactly when the row's LAST tracked field is NULL (only the final bare
`N_{k-1}` disjunct can be TRUE, since every `E_i` is UNKNOWN). -/
theorem whereTrue_nil_lead (a : List (Option Nat)) :
    whereTrue a (a.map fun _ => none) = true ↔ a.getLast? = some none := by
  induction a with
  | nil => simp [whereTrue, orList_nil, dupDisjuncts]
  | cons x rest ih =>
    cases rest with
    | nil =>
      cases x <;>
        simp [whereTrue, List.zip_cons_cons, dupDisjuncts, dupTail, orList_cons, orList_nil,
          sqlEq, bothNull, sqlOr]
    | cons y rest2 =>
      rw [List.getLast?_cons_cons, ← ih]
      simp only [whereTrue, List.map_cons, List.zip_cons_cons, dupDisjuncts, dupTail,
        beq_iff_eq, orList_eq_tt]
      constructor
      · rintro ⟨z, hz, hztt⟩
        rcases List.mem_cons.mp hz with hz1 | hz2
        · subst hz1
          rw [sqlEq_none_right] at hztt
          cases hztt
        · rcases List.mem_cons.mp hz2 with hz3 | hz4
          · subst hz3
            exfalso
            cases x <;> cases y <;> simp [sqlAnd, bothNull, sqlEq] at hztt
          · exact ⟨z, List.mem_cons_of_mem _ hz4, hztt⟩
      · rintro ⟨z, hz, hztt⟩
        rcases List.mem_cons.mp hz with hz1 | hz2
        · subst hz1
          rw [sqlEq_none_right] at hztt
          cases hztt
        · exact ⟨z, List.mem_cons_of_mem _ (List.mem_cons_of_mem _ hz2), hztt⟩

/-! ### Helper lemmas about partitions, sorting and the raw query -/

theorem mark_of_adjacent (xs : List VersionRecord) (a b : VersionRecord)
    (ys : List VersionRecord) (h : whereTrue a.fields b.fields = true) :
    a.history_id ∈ partitionDupIds (xs ++ a :: b :: ys) := by
  induction xs with
  | nil =>
    rw [List.nil_append, partitionDupIds]
    rw [show leadFieldsFor a (b :: ys) = b.fields from rfl, h]
    exact List.mem_append_left _ (List.mem_singleton.mpr rfl)
  | cons x xs ih =>
    rw [List.cons_append, partitionDupIds]
    exact List.mem_append_right _ ih

theorem mem_partitionDupIds {i : Nat} :
    ∀ {p : List VersionRecord}, i ∈ partitionDupIds p → ∃ r ∈ p, r.history_id = i := by
  intro p
  induction p with
  | nil => intro h; cases h
  | cons r rest ih =>
    intro h
    rw [partitionDupIds] at h
    rcases List.mem_append.mp h with h1 | h2
    · refine ⟨r, List.mem_cons_self _ _, ?_⟩
      by_cases hc : whereTrue r.fields (leadFieldsFor r rest) = true
      · rw [if_pos hc] at h1
        exact (List.mem_singleton.mp h1).symm
      · rw [if_neg hc] at h1
        cases h1
    · rcases ih h2 with ⟨r2, hr2, hid⟩
      exact ⟨r2, List.mem_cons_of_mem _ hr2, hid⟩

theorem partitionDupIds_sublist :
    ∀ p : List VersionRecord,
      List.Sublist (partitionDupIds p) (p.map fun r => r.history_id) := by
  intro p
  induction p with
  | nil => exact List.Sublist.refl _
  | cons r rest ih =>
    rw [partitionDupIds, List.map_cons]
    by_cases hc : whereTrue r.fields (leadFieldsFor r rest) = true
    · rw [if_pos hc]
      exact (ih.cons₂ r.history_id)
    · rw [if_neg hc, List.nil_append]
      exact ih.cons r.history_id

/-- If the clause is FALSE (or UNKNOWN) at every position of a partition whose
pk list has no duplicates, the partition-last row is selected only via its own
all-NULL LEAD, which `whereTrue_nil_lead` rules out for a non-null last
field. -/
theorem last_not_marked :
    ∀ (p : List VersionRecord) (r : VersionRecord),
      ((p.map fun r2 => r2.history_id).Nodup) → p.getLast? = some r →
      r.fields.getLast? ≠ some none → r.history_id ∉ partitionDupIds p := by
  intro p
  induction p with
  | nil => intro r _ hl; cases hl
  | cons x rest ih =>
    intro r hnd hl hf
    cases rest with
    | nil =>
      rw [List.getLast?_singleton, Option.some.injEq] at hl
      subst hl
      rw [partitionDupIds, partitionDupIds, List.append_nil]
      by_cases hc : whereTrue x.fields (leadFieldsFor x []) = true
      · exact absurd ((whereTrue_nil_lead x.fields).mp hc) hf
      · rw [if_neg hc]
        simp
    | cons y rest2 =>
      rw [List.getLast?_cons_cons] at hl
      rw [List.map_cons, List.nodup_cons] at hnd
      have hr_mem : r ∈ y :: rest2 := by
        have := List.getLast?_eq_getLast (y :: rest2) (by simp)
        rw [this, Option.some.injEq] at hl
        rw [← hl]
        exact List.getLast_mem _
      rw [partitionDupIds]
      intro hmem
      rcases List.mem_append.mp hmem with h1 | h2
      · have hpk : r.history_id ∈ (y :: rest2).map fun r2 => r2.history_id :=
          List.mem_map_of_mem _ hr_mem
        by_cases hc : whereTrue x.fields (leadFieldsFor x (y :: rest2)) = true
        · rw [if_pos hc] at h1
          rw [List.mem_singleton.mp h1] at hpk
          exact hnd.1 hpk
        · rw [if_neg hc] at h1
          cases h1
      · exact ih r hnd.2 hl hf h2

theorem insertDesc_perm (r : VersionRecord) (l : List VersionRecord) :
    (insertDesc r l).Perm (r :: l) := by
  induction l with
  | nil => exact List.Perm.refl _
  | cons s rest ih =>
    rw [insertDesc]
    by_cases hc : newerThan r s = true
    · rw [if_pos hc]
    · rw [if_neg hc]
      exact (ih.cons s).trans (List.Perm.swap r s rest)

theorem sortDesc_perm (l : List VersionRecord) : (sortDesc l).Perm l := by
  induction l with
  | nil => exact List.Perm.refl _
  | cons r rest ih => exact (insertDesc_perm r (sortDesc rest)).trans (ih.cons r)

theorem mem_sortDesc {r : VersionRecord} {l : List VersionRecord} :
    r ∈ sortDesc l ↔ r ∈ l := (sortDesc_perm l).mem_iff

theorem mem_dedupKeys : ∀ (l : List Nat) (x : Nat), x ∈ dedupKeys l ↔ x ∈ l := by
  intro l
  induction l with
  | nil => intro x; simp [dedupKeys]
  | cons e rest ih =>
    intro x
    rw [dedupKeys]
    by_cases hc : e ∈ dedupKeys rest
    · rw [if_pos hc, ih x]
      constructor
      · exact fun h => List.mem_cons_of_mem _ h
      · intro h
        rcases List.mem_cons.mp h with h1 | h2
        · rw [h1]
          exact (ih e).mp hc
        · exact h2
    · rw [if_neg hc]
      constructor
      · intro h
        rcases List.mem_cons.mp h with h1 | h2
        · rw [h1]
          exact List.mem_cons_self _ _
        · exact List.mem_cons_of_mem _ ((ih x).mp h2)
      · intro h
        rcases List.mem_cons.mp h with h1 | h2
        · rw [h1]
          exact List.mem_cons_self _ _
        · exact List.mem_cons_of_mem _ ((ih x).mpr h2)

theorem nodup_dedupKeys : ∀ l : List Nat, (dedupKeys l).Nodup := by
  intro l
  induction l with
  | nil => exact List.nodup_nil
  | cons e rest ih =>
    rw [dedupKeys]
    by_cases hc : e ∈ dedupKeys rest
    · rw [if_pos hc]; exact ih
    · rw [if_neg hc]; exact List.nodup_cons.mpr ⟨hc, ih⟩

theorem mem_rangeRows {r : VersionRecord} {tbl : List VersionRecord} {lo hi : Nat} :
    r ∈ rangeRows tbl lo hi ↔ r ∈ tbl ∧ lo ≤ r.entity_id ∧ r.entity_id < hi := by
  rw [rangeRows, List.mem_filter]
  simp

theorem rangeRows_sublist (tbl : List VersionRecord) (lo hi : Nat) :
    List.Sublist (rangeRows tbl lo hi) tbl := List.filter_sublist tbl

/-- Every id the raw query returns names a row of the table whose entity id
lies in the queried half-open range. -/
theorem rawQueryIds_mem {i : Nat} {tbl : List VersionRecord} {lo hi : Nat}
    (h : i ∈ rawQueryIds tbl lo hi) :
    ∃ r ∈ tbl, r.history_id = i ∧ lo ≤ r.entity_id ∧ r.entity_id < hi := by
  rw [rawQueryIds] at h
  rcases List.mem_flatMap.mp h with ⟨e, _, hmem⟩
  rcases mem_partitionDupIds hmem with ⟨r, hr, hid⟩
  have hr2 := List.mem_filter.mp (mem_sortDesc.mp hr)
  have hr3 := mem_rangeRows.mp hr2.1
  exact ⟨r, hr3.1, hid, hr3.2⟩

theorem pk_inj {tbl : List VersionRecord}
    (hnd : (tbl.map fun r => r.history_id).Nodup) {a b : VersionRecord}
    (ha : a ∈ tbl) (hb : b ∈ tbl) (hpk : a.history_id = b.history_id) : a = b := by
  induction tbl with
  | nil => cases ha
  | cons x rest ih =>
    rw [List.map_cons, List.nodup_cons] at hnd
    rcases List.mem_cons.mp ha with ha1 | ha2 <;> rcases List.mem_cons.mp hb with hb1 | hb2
    · rw [ha1, hb1]
    · subst ha1
      exact absurd (hpk ▸ List.mem_map_of_mem _ hb2) hnd.1
    · subst hb1
      exact absurd (hpk ▸ List.mem_map_of_mem _ ha2) hnd.1
    · exact ih hnd.2 ha2 hb2

/-- C1, amended. For the sorted partition `p` of entity `e` inside a block:
whenever `p` decomposes around an adjacent pair (newer `a`, older `b`) with
equal tracked fields, the NEWER row's `history_id` is selected; and the
partition-last row (no older neighbor) is never selected provided its last
tracked field is non-null. -/
theorem c1_marks_newer (tbl : List VersionRecord) (lo hi e : Nat) (p : List VersionRecord)
    (hnd : (tbl.map fun r => r.history_id).Nodup)
    (hp : p = sortDesc ((rangeRows tbl lo hi).filter fun r => decide (r.entity_id = e))) :
    (∀ xs a b ys, p = xs ++ a :: b :: ys → a.fields = b.fields → a.fields ≠ [] →
        a.history_id ∈ rawQueryIds tbl lo hi) ∧
    (∀ r, p.getLast? = some r → r.fields.getLast? ≠ some none →
        r.history_id ∉ rawQueryIds tbl lo hi) := by
  constructor
  · intro xs a b ys hdecomp heq hne
    have ha_in : a ∈ p := by
      rw [hdecomp]
      exact List.mem_append_right _ (List.mem_cons_self _ _)
    have ha_f := List.mem_filter.mp (mem_sortDesc.mp (hp ▸ ha_in))
    have hae : a.entity_id = e := by simpa using ha_f.2
    simp only [rawQueryIds]
    refine List.mem_flatMap.mpr ⟨e, ?_, ?_⟩
    · rw [mem_dedupKeys, ← hae]
      exact List.mem_map_of_mem _ ha_f.1
    · rw [← hp, hdecomp]
      exact mark_of_adjacent xs a b ys (by rw [← heq]; exact whereTrue_refl a.fields hne)
  · intro r hlast hfield hmem_raw
    have hne0 : p ≠ [] := by
      intro h0
      rw [h0] at hlast
      cases hlast
    have hlast2 := hlast
    rw [List.getLast?_eq_getLast _ hne0, Option.some.injEq] at hlast2
    have hr_in_p : r ∈ p := by
      rw [← hlast2]
      exact List.getLast_mem _
    have hr_f := List.mem_filter.mp (mem_sortDesc.mp (hp ▸ hr_in_p))
    have hr_tbl := (mem_rangeRows.mp hr_f.1).1
    have hre : r.entity_id = e := by simpa using hr_f.2
    simp only [rawQueryIds] at hmem_raw
    rcases List.mem_flatMap.mp hmem_raw with ⟨e2, he2, hmem2⟩
    rcases mem_partitionDupIds hmem2 with ⟨r2, hr2p, hr2id⟩
    have hr2_f := List.mem_filter.mp (mem_sortDesc.mp hr2p)
    have hr2_tbl := (mem_rangeRows.mp hr2_f.1).1
    have hr2e : r2.entity_id = e2 := by simpa using hr2_f.2
    have hrr : r2 = r := pk_inj hnd hr2_tbl hr_tbl hr2id
    subst hrr
    have he2e : e2 = e := by
      rw [← hr2e]
      exact hre
    rw [he2e] at hmem2
    have hnd_p : (p.map fun r2 => r2.history_id).Nodup := by
      rw [hp]
      have hq_sub : List.Sublist
          ((((rangeRows tbl lo hi).filter fun r3 => decide (r3.entity_id = e)).map
            fun r3 => r3.history_id))
          (tbl.map fun r3 => r3.history_id) :=
        ((List.filter_sublist _).trans (rangeRows_sublist tbl lo hi)).map _
      exact ((sortDesc_perm _).map _).nodup_iff.mpr (hq_sub.nodup hnd)
    exact last_not_marked p r2 hnd_p hlast hfield (by rw [hp]; exact hmem2)

/-- C1, witness for the amended theorem at the concrete table `tblC1`. -/
theorem c1_marks_newer_witness :
    ((tblC1.map fun r => r.history_id).Nodup) ∧
    ((∀ xs a b ys,
        sortDesc ((rangeRows tblC1 0 10).filter fun r => decide (r.entity_id = 1)) =
          xs ++ a :: b :: ys →
        a.fields = b.fields → a.fields ≠ [] → a.history_id ∈ rawQueryIds tblC1 0 10) ∧
     (∀ r,
        (sortDesc ((rangeRows tblC1 0 10).filter fun r2 =>
          decide (r2.entity_id = 1))).getLast? = some r →
        r.fields.getLast? ≠ some none → r.history_id ∉ rawQueryIds tblC1 0 10)) :=
  ⟨by decide, c1_marks_newer tblC1 0 10 1 _ (by decide) rfl⟩

/-- C1, counterexample. On `tblC1` the adjacent pair (newer id 2, older id 1)
of entity 1 is field-identical: the claim marks the OLDER id 1 as the
duplicate, and says the partition-oldest row is never marked; the code's pass
marks the newer id 2, does not mark id 1, and marks id 3 even though id 3 has
no older neighbor (its only field is NULL, indistinguishable from the all-NULL
LEAD of a partition-last row). -/
theorem c1_counterexample :
    1 ∉ detectDuplicates tblC1 none stepSize ∧
    2 ∈ detectDuplicates tblC1 none stepSize ∧
    3 ∈ detectDuplicates tblC1 none stepSize := by decide

/-- C2, failing-input evaluation. The two versions of `tblC2` differ in their
second tracked field, so each is a maximal field-identical run of size one and
the survivor invariant requires both to remain; but the generated WHERE clause
`E0 OR (N0) AND E1 OR (N1)` parses as `E0 OR (N0 AND E1) OR N1`, so agreement
on the FIRST field alone selects the newer row, which the run deletes. -/
theorem c2_survivor_violated :
    (tblC2.map fun r => r.fields) = [[some 1, some 2], [some 1, some 3]] ∧
    runModel tblC2 none false stepSize = ([⟨1, 1, 1, [some 1, some 3]⟩], 1) := by decide

/-- C3, failing-input evaluation. The sole (hence chronologically oldest)
version of entity 1 has its only tracked field NULL; `LEAD` past the end of
the partition is NULL as well, so `field_0 is NULL AND history_0 is NULL`
holds and the anchor row is selected and deleted. -/
theorem c3_anchor_violated : runModel tblC3 none false stepSize = ([], 1) := by decide

/-- C4, counterexample. On the spec's fixture the code's duplicate set is
{V5, V3, V2}, not the claimed {V4, V2}: V4 is never selected and V5 is. -/
theorem c4_counterexample :
    4 ∉ detectDuplicates tblC4 none stepSize ∧
    5 ∈ detectDuplicates tblC4 none stepSize := by decide

/-- C4, amended. The pass on the fixture returns exactly {V5, V3, V2}: each
adjacent field-identical pair contributes the NEWER id, so the X-run keeps V4
and the Y-run keeps V1. -/
theorem c4_fixture_duplicates :
    detectDuplicates tblC4 none stepSize = [5, 3, 2] := by decide

/-- C5, failing-input evaluation. On `tblC5` the first full run deletes ids 4
and 3 (count 2); on the unchanged result a second run deletes id 5 (count 1,
not 0): after the first deletion ids 5 and 2 become adjacent and both have a
NULL second field, so the `(N1)` disjunct of the mis-parenthesised WHERE
clause selects id 5. -/
theorem c5_idempotence_violated :
    runModel tblC5 none false stepSize =
      ([⟨1, 5, 5, [some 1, none]⟩, ⟨1, 2, 2, [some 3, none]⟩, ⟨1, 1, 1, [some 7, some 8]⟩], 2) ∧
    (runModel (runModel tblC5 none false stepSize).1 none false stepSize).2 = 1 := by decide

/-- C6, counterexample. With cutoff 5 on `tblC6` the raw query (which ignores
the date filter) selects id 2, so a dry run reports count 1; a non-dry run on
the unchanged table deletes nothing, because the delete goes through the
date-filtered queryset and id 2 is out of window. -/
theorem c6_counterexample :
    (runModel tblC6 (some 5) true stepSize).2 = 1 ∧
    (runModel tblC6 (some 5) false stepSize).1 = tblC6 := by decide

/-- C7, failing-input evaluation. With cutoff 5 on `tblC7` the candidate set
is exactly {2}, yet version 2 was recorded at time 2, before the cutoff: the
raw detection query examines and counts records outside the time window. -/
theorem c7_window_violated :
    detectDuplicates tblC7 (some 5) stepSize = [2] ∧
    ∀ r ∈ tblC7, r.history_id = 2 → r.history_date < 5 := by decide

/-- C8, counterexample. For max_entity_id 5 and step 10 the plan is
[(0,10), (10,20)]: its final range (10,20) does not contain 5, so the plan
does not end with the range containing the maximal entity id. -/
theorem c8_counterexample :
    (planRanges 5 10).getLast? = some (10, 20) ∧ ¬(10 ≤ 5 ∧ 5 < 20) := by decide

/-- C9, counterexample. On `tblC9` with a failure in block 0 the run aborts
at once with the table unchanged — block 1, whose candidate set [4] is
nonempty, is never reached — instead of logging and proceeding to block 1 as
the claim states. -/
theorem c9_counterexample :
    runModelExc tblC9 none false stepSize (fun x => x == 0) = .error (0, tblC9) ∧
    rawQueryIds tblC9 100000 200000 = [4] := ⟨by rfl, by decide⟩

theorem div_bounds (n s : Nat) (hs : 1 ≤ s) :
    (n / s) * s ≤ n ∧ n < (n / s + 1) * s := by
  refine ⟨Nat.div_mul_le_self n s, ?_⟩
  have h1 := Nat.div_add_mod n s
  have h2 : n % s < s := Nat.mod_lt n hs
  rw [Nat.add_mul, Nat.one_mul, Nat.mul_comm]
  omega

theorem div_unique_range (n s j : Nat) (h1 : j * s ≤ n) (h2 : n < (j + 1) * s) :
    j = n / s := by
  have hs : 0 < s := by
    rcases Nat.eq_zero_or_pos s with h0 | h0
    · rw [h0, Nat.mul_zero] at h2
      omega
    · exact h0
  have ha : j ≤ n / s := (Nat.le_div_iff_mul_le hs).mpr h1
  have hb : n / s < j + 1 := (Nat.div_lt_iff_lt_mul hs).mpr h2
  omega

/-- C8, amended. For any maximal entity id and any positive step, the plan is
exactly the ranges `[i*step, (i+1)*step)` for `i = 0 .. ceil(maxId/step)`:
contiguous, width `step`, starting at 0; every `n ≤ maxId` lies in the unique
range with index `n/step`, which belongs to the plan (coverage, no gaps, no
overlaps); and a model whose queryset is empty gets the empty plan, while a
nonempty one gets exactly this plan. -/
theorem c8_batch_coverage (maxId s : Nat) (hs : 1 ≤ s) :
    (planRanges maxId s).length = maxIterations maxId s + 1 ∧
    (∀ i, ∀ h : i < (planRanges maxId s).length,
        (planRanges maxId s).get ⟨i, h⟩ = (i * s, (i + 1) * s)) ∧
    (∀ n, n ≤ maxId →
      n / s ≤ maxIterations maxId s ∧ (n / s) * s ≤ n ∧ n < (n / s + 1) * s ∧
      ∀ j, j * s ≤ n → n < (j + 1) * s → j = n / s) ∧
    (∀ tbl cutoff, (filteredRows tbl cutoff).length = 0 → planOf tbl cutoff s = []) ∧
    (∀ tbl cutoff, (filteredRows tbl cutoff).length ≠ 0 →
      planOf tbl cutoff s = planRanges (maxEntityId (filteredRows tbl cutoff)) s) := by
  refine ⟨?_, ?_, ?_, ?_, ?_⟩
  · rw [planRanges, List.length_map, List.length_range]
  · intro i h
    simp [planRanges, List.get_eq_getElem, List.getElem_map, List.getElem_range]
  · intro n hn
    refine ⟨?_, (div_bounds n s hs).1, (div_bounds n s hs).2,
      fun j h1 h2 => div_unique_range n s j h1 h2⟩
    have hgoal : n / s ≤ (maxId + s - 1) / s :=
      (Nat.div_le_div_right hn).trans (Nat.div_le_div_right (by omega))
    exact hgoal
  · intro tbl cutoff h0
    simp only [planOf]
    rw [if_pos h0]
  · intro tbl cutoff h0
    simp only [planOf]
    rw [if_neg h0]

/-- C8, witness for the amended theorem at maxId 5, step 10. -/
theorem c8_batch_coverage_witness :
    1 ≤ 10 ∧
    ((planRanges 5 10).length = maxIterations 5 10 + 1 ∧
     (∀ i, ∀ h : i < (planRanges 5 10).length,
         (planRanges 5 10).get ⟨i, h⟩ = (i * 10, (i + 1) * 10)) ∧
     (∀ n, n ≤ 5 →
       n / 10 ≤ maxIterations 5 10 ∧ (n / 10) * 10 ≤ n ∧ n < (n / 10 + 1) * 10 ∧
       ∀ j, j * 10 ≤ n → n < (j + 1) * 10 → j = n / 10) ∧
     (∀ tbl cutoff, (filteredRows tbl cutoff).length = 0 → planOf tbl cutoff 10 = []) ∧
     (∀ tbl cutoff, (filteredRows tbl cutoff).length ≠ 0 →
       planOf tbl cutoff 10 = planRanges (maxEntityId (filteredRows tbl cutoff)) 10)) :=
  ⟨by decide, c8_batch_coverage 5 10 (by decide)⟩

theorem runBatchesExc_split (cutoff : Option Nat) (dryRun : Bool) (s : Nat)
    (fails : Nat → Bool) (x : Nat) (hfail : fails x = true) :
    ∀ (ys zs : List Nat) (st : List VersionRecord × Nat), (∀ y ∈ ys, fails y = false) →
      runBatchesExc cutoff dryRun s fails (ys ++ x :: zs) st =
        .error (x, (ys.foldl (batchStep cutoff dryRun s) st).1) := by
  intro ys
  induction ys with
  | nil =>
    intro zs st _
    rw [List.nil_append, List.foldl_nil]
    simp only [runBatchesExc]
    rw [if_pos hfail]
  | cons y ys ih =>
    intro zs st hprev
    have hy : fails y = false := hprev y (List.mem_cons_self _ _)
    rw [List.cons_append, List.foldl_cons]
    simp only [runBatchesExc]
    rw [if_neg (by simp [hy])]
    exact ih zs (batchStep cutoff dryRun s st y)
      (fun z hz => hprev z (List.mem_cons_of_mem _ hz))

/-- C9, amended. If block `x` of the plan is the first to fail, `_process`
propagates the failure at once: the result is the error of block `x`, with the
table reflecting exactly the deletions committed by the blocks before `x`
(their transactions are independent and are not unwound), and no later block
runs. -/
theorem c9_abort_on_failure (tbl : List VersionRecord) (cutoff : Option Nat) (dryRun : Bool)
    (s : Nat) (fails : Nat → Bool) (x : Nat)
    (hfound : (filteredRows tbl cutoff).length ≠ 0)
    (hx : x < maxIterations (maxEntityId (filteredRows tbl cutoff)) s + 1)
    (hprev : ∀ y, y < x → fails y = false)
    (hfail : fails x = true) :
    runModelExc tbl cutoff dryRun s fails =
      .error (x, ((List.range x).foldl (batchStep cutoff dryRun s) (tbl, 0)).1) := by
  simp only [runModelExc]
  rw [if_neg hfound]
  obtain ⟨k, hk⟩ :
      ∃ k, maxIterations (maxEntityId (filteredRows tbl cutoff)) s + 1 = x + (k + 1) :=
    ⟨maxIterations (maxEntityId (filteredRows tbl cutoff)) s - x, by omega⟩
  rw [hk, List.range_add, List.range_succ_eq_map, List.map_cons, Nat.add_zero]
  exact runBatchesExc_split cutoff dryRun s fails x hfail (List.range x) _ (tbl, 0)
    (fun y hy => hprev y (List.mem_range.mp hy))

/-- C9, witness for the amended theorem: with a failure oracle that fails the
very first block, the run on `tblW9` aborts immediately with the table
untouched. -/
theorem c9_abort_on_failure_witness :
    (filteredRows tblW9 none).length ≠ 0 ∧
    0 < maxIterations (maxEntityId (filteredRows tblW9 none)) 100000 + 1 ∧
    runModelExc tblW9 none false 100000 (fun _ => true) = .error (0, tblW9) := by
  refine ⟨by decide, by decide, ?_⟩
  exact c9_abort_on_failure tblW9 none false 100000 (fun _ => true) 0 (by decide)
    (by decide) (fun y hy => absurd hy (Nat.not_lt_zero y)) rfl

theorem entity_le_maxEntityId : ∀ (rows : List VersionRecord) (r : VersionRecord),
    r ∈ rows → r.entity_id ≤ maxEntityId rows := by
  intro rows
  induction rows with
  | nil => intro r h; cases h
  | cons x rest ih =>
    intro r h
    rw [maxEntityId, List.foldr_cons]
    rcases List.mem_cons.mp h with h1 | h2
    · rw [h1]
      exact Nat.le_max_left _ _
    · exact (ih r h2).trans (Nat.le_max_right _ _)

theorem filteredRows_none (tbl : List VersionRecord) : filteredRows tbl none = tbl := by
  rw [filteredRows]
  apply List.filter_eq_self.mpr
  intro a _
  rfl

theorem rawQueryIds_disjoint (tbl : List VersionRecord) (s : Nat)
    (hnd : (tbl.map fun r => r.history_id).Nodup) {x y : Nat} (hxy : x ≠ y) {i : Nat}
    (h1 : i ∈ rawQueryIds tbl (x * s) ((x + 1) * s)) :
    i ∉ rawQueryIds tbl (y * s) ((y + 1) * s) := by
  intro h2
  rcases rawQueryIds_mem h1 with ⟨r1, hr1, hid1, hlo1, hhi1⟩
  rcases rawQueryIds_mem h2 with ⟨r2, hr2, hid2, hlo2, hhi2⟩
  have hrr : r1 = r2 := pk_inj hnd hr1 hr2 (by rw [hid1, hid2])
  subst hrr
  exact hxy ((div_unique_range r1.entity_id s x hlo1 hhi1).trans
    (div_unique_range r1.entity_id s y hlo2 hhi2).symm)

/-- C10. Blocks and window partitions are keyed by the same entity id, so the
candidate sets of distinct blocks are disjoint, and each row's entity falls
wholly into the single planned block with index entity_id/step (which is part
of the plan since entity_id is at most the maximal entity id). -/
theorem c10_batch_alignment (tbl : List VersionRecord) (s : Nat)
    (hnd : (tbl.map fun r => r.history_id).Nodup) (hs : 1 ≤ s) :
    (∀ x y, x ≠ y → ∀ i, i ∈ rawQueryIds tbl (x * s) ((x + 1) * s) →
        i ∉ rawQueryIds tbl (y * s) ((y + 1) * s)) ∧
    (∀ r, r ∈ tbl →
      r.entity_id / s ≤ maxIterations (maxEntityId (filteredRows tbl none)) s ∧
      (∀ r2, r2 ∈ tbl → r2.entity_id = r.entity_id →
        r2 ∈ rangeRows tbl ((r.entity_id / s) * s) ((r.entity_id / s + 1) * s)) ∧
      (∀ x, (∃ r2, r2 ∈ tbl ∧ r2.entity_id = r.entity_id ∧
          r2 ∈ rangeRows tbl (x * s) ((x + 1) * s)) → x = r.entity_id / s)) := by
  constructor
  · intro x y hxy i h1
    exact rawQueryIds_disjoint tbl s hnd hxy h1
  · intro r hr
    have hle : r.entity_id ≤ maxEntityId (filteredRows tbl none) := by
      rw [filteredRows_none]
      exact entity_le_maxEntityId tbl r hr
    refine ⟨?_, ?_, ?_⟩
    · exact (Nat.div_le_div_right hle).trans (Nat.div_le_div_right (by omega))
    · intro r2 hr2 he
      rw [mem_rangeRows]
      refine ⟨hr2, ?_, ?_⟩
      · rw [he]
        exact (div_bounds r.entity_id s hs).1
      · rw [he]
        exact (div_bounds r.entity_id s hs).2
    · rintro x ⟨r2, _, he, hin⟩
      have hb := (mem_rangeRows.mp hin).2
      rw [he] at hb
      exact div_unique_range r.entity_id s x hb.1 hb.2

/-- C10, witness at the concrete table `tblW10` with the source's step. -/
theorem c10_batch_alignment_witness :
    ((tblW10.map fun r => r.history_id).Nodup) ∧ 1 ≤ 100000 ∧
    ((∀ x y, x ≠ y → ∀ i, i ∈ rawQueryIds tblW10 (x * 100000) ((x + 1) * 100000) →
        i ∉ rawQueryIds tblW10 (y * 100000) ((y + 1) * 100000)) ∧
     (∀ r, r ∈ tblW10 →
       r.entity_id / 100000 ≤
         maxIterations (maxEntityId (filteredRows tblW10 none)) 100000 ∧
       (∀ r2, r2 ∈ tblW10 → r2.entity_id = r.entity_id →
         r2 ∈ rangeRows tblW10 ((r.entity_id / 100000) * 100000)
           ((r.entity_id / 100000 + 1) * 100000)) ∧
       (∀ x, (∃ r2, r2 ∈ tblW10 ∧ r2.entity_id = r.entity_id ∧
           r2 ∈ rangeRows tblW10 (x * 100000) ((x + 1) * 100000)) →
         x = r.entity_id / 100000))) :=
  ⟨by decide, by decide, c10_batch_alignment tblW10 100000 (by decide) (by decide)⟩

theorem rawQueryIds_nodup (tbl : List VersionRecord) (lo hi : Nat)
    (hnd : (tbl.map fun r => r.history_id).Nodup) : (rawQueryIds tbl lo hi).Nodup := by
  simp only [rawQueryIds]
  rw [List.nodup_flatMap]
  constructor
  · intro e _
    have hsub : List.Sublist
        (((rangeRows tbl lo hi).filter fun r => decide (r.entity_id = e)).map
          fun r => r.history_id)
        (tbl.map fun r => r.history_id) :=
      ((List.filter_sublist _).trans (rangeRows_sublist tbl lo hi)).map _
    exact (partitionDupIds_sublist _).nodup
      (((sortDesc_perm _).map _).nodup_iff.mpr (hsub.nodup hnd))
  · refine List.Pairwise.imp ?_ (nodup_dedupKeys _)
    intro e1 e2 hne
    intro i hi1 hi2
    rcases mem_partitionDupIds hi1 with ⟨r1, hr1, hid1⟩
    rcases mem_partitionDupIds hi2 with ⟨r2, hr2, hid2⟩
    have hf1 := List.mem_filter.mp (mem_sortDesc.mp hr1)
    have hf2 := List.mem_filter.mp (mem_sortDesc.mp hr2)
    have ht1 := (mem_rangeRows.mp hf1.1).1
    have ht2 := (mem_rangeRows.mp hf2.1).1
    have he1 : r1.entity_id = e1 := by simpa using hf1.2
    have he2 : r2.entity_id = e2 := by simpa using hf2.2
    have hrr : r1 = r2 := pk_inj hnd ht1 ht2 (by rw [hid1, hid2])
    exact hne (by rw [← he1, hrr, he2])

theorem delIdsUpTo_succ (tbl : List VersionRecord) (s n : Nat) :
    delIdsUpTo tbl s (n + 1) =
      delIdsUpTo tbl s n ++ rawQueryIds tbl (n * s) ((n + 1) * s) := by
  rw [delIdsUpTo, delIdsUpTo, List.range_succ, List.flatMap_append]
  simp

theorem delIdsUpTo_mem (tbl : List VersionRecord) (s n : Nat) {i : Nat}
    (h : i ∈ delIdsUpTo tbl s n) :
    ∃ r ∈ tbl, r.history_id = i ∧ r.entity_id < n * s := by
  rw [delIdsUpTo] at h
  rcases List.mem_flatMap.mp h with ⟨x, hx, hmem⟩
  rcases rawQueryIds_mem hmem with ⟨r, hr, hid, _, hhi⟩
  refine ⟨r, hr, hid, hhi.trans_le ?_⟩
  exact Nat.mul_le_mul_right s (List.mem_range.mp hx)

theorem delIdsUpTo_nodup (tbl : List VersionRecord) (s n : Nat)
    (hnd : (tbl.map fun r => r.history_id).Nodup) : (delIdsUpTo tbl s n).Nodup := by
  rw [delIdsUpTo, List.nodup_flatMap]
  constructor
  · intro x _
    exact rawQueryIds_nodup tbl _ _ hnd
  · refine List.Pairwise.imp ?_ (List.nodup_range n)
    intro x y hxy i hi1 hi2
    exact rawQueryIds_disjoint tbl s hnd hxy hi1 hi2

theorem rawQueryIds_congr {t1 t2 : List VersionRecord} {lo hi : Nat}
    (h : rangeRows t1 lo hi = rangeRows t2 lo hi) :
    rawQueryIds t1 lo hi = rawQueryIds t2 lo hi := by
  simp only [rawQueryIds, h]

theorem rangeRows_filter (tbl : List VersionRecord) (q : VersionRecord → Bool) (lo hi : Nat) :
    rangeRows (tbl.filter q) lo hi = (rangeRows tbl lo hi).filter q := by
  rw [rangeRows, rangeRows, List.filter_filter, List.filter_filter]
  exact List.filter_congr fun a _ => by rw [Bool.and_comm]

theorem length_filter_mem (tbl : List VersionRecord) (ids : List Nat)
    (hnd : (tbl.map fun r => r.history_id).Nodup) (hids : ids.Nodup)
    (hex : ∀ i ∈ ids, i ∈ tbl.map fun r => r.history_id) :
    (tbl.filter fun r => decide (r.history_id ∈ ids)).length = ids.length := by
  have hmapnd : ((tbl.filter fun r => decide (r.history_id ∈ ids)).map
      fun r => r.history_id).Nodup :=
    ((List.filter_sublist _).map _).nodup hnd
  have hperm : ((tbl.filter fun r => decide (r.history_id ∈ ids)).map
      fun r => r.history_id).Perm ids := by
    rw [List.perm_iff_count]
    intro a
    by_cases ha : a ∈ ids
    · have hamem : a ∈ (tbl.filter fun r => decide (r.history_id ∈ ids)).map
          fun r => r.history_id := by
        rcases List.mem_map.mp (hex a ha) with ⟨r, hr, hpk⟩
        exact List.mem_map.mpr
          ⟨r, List.mem_filter.mpr ⟨hr, by rw [hpk]; exact decide_eq_true ha⟩, hpk⟩
      rw [List.count_eq_one_of_mem hmapnd hamem, List.count_eq_one_of_mem hids ha]
    · have hno : a ∉ (tbl.filter fun r => decide (r.history_id ∈ ids)).map
          fun r => r.history_id := by
        intro hmem
        rcases List.mem_map.mp hmem with ⟨r, hr, hpk⟩
        have hdec := (List.mem_filter.mp hr).2
        rw [hpk] at hdec
        exact ha (of_decide_eq_true hdec)
      rw [List.count_eq_zero.mpr hno, List.count_eq_zero.mpr ha]
  calc (tbl.filter fun r => decide (r.history_id ∈ ids)).length
      = ((tbl.filter fun r => decide (r.history_id ∈ ids)).map
          fun r => r.history_id).length := (List.length_map _ _).symm
    _ = ids.length := hperm.length_eq

theorem length_filter_not (l : List VersionRecord) (p : VersionRecord → Bool) :
    (l.filter fun a => !(p a)).length = l.length - (l.filter p).length := by
  induction l with
  | nil => rfl
  | cons x rest ih =>
    have hle := List.length_filter_le p rest
    cases hx : p x
    · simp [List.filter_cons, hx]
      omega
    · simp [List.filter_cons, hx]
      omega

/-- The block loop of a non-dry, no-cutoff run: after `n` blocks the table is
the original one minus the rows listed by the first `n` blocks (each block's
raw query sees the same rows of its own id range as it would on the original
table, because earlier blocks only removed rows of strictly smaller entity
ids), and the running count is the length of the accumulated candidate
list. -/
theorem runBatches_fold (tbl : List VersionRecord) (s : Nat)
    (hnd : (tbl.map fun r => r.history_id).Nodup) :
    ∀ n, (List.range n).foldl (batchStep none false s) (tbl, 0) =
      (tbl.filter fun r => !(decide (r.history_id ∈ delIdsUpTo tbl s n)),
        (delIdsUpTo tbl s n).length) := by
  intro n
  induction n with
  | zero =>
    rw [List.range_zero, List.foldl_nil]
    rw [show delIdsUpTo tbl s 0 = [] from rfl]
    simp
  | succ n ih =>
    rw [List.range_succ, List.foldl_append, ih, List.foldl_cons, List.foldl_nil]
    have hlisty :
        rawQueryIds (tbl.filter fun r => !(decide (r.history_id ∈ delIdsUpTo tbl s n)))
          (n * s) ((n + 1) * s) = rawQueryIds tbl (n * s) ((n + 1) * s) := by
      apply rawQueryIds_congr
      rw [rangeRows_filter]
      apply List.filter_eq_self.mpr
      intro r hr
      rcases mem_rangeRows.mp hr with ⟨hrt, hlo, hhi⟩
      rw [Bool.not_eq_true']
      apply decide_eq_false
      intro hmem
      rcases delIdsUpTo_mem tbl s n hmem with ⟨r2, hr2t, hpk, hlt⟩
      have hrr : r2 = r := pk_inj hnd hr2t hrt hpk
      rw [hrr] at hlt
      omega
    simp only [batchStep, hlisty]
    rw [if_neg (by simp)]
    refine Prod.ext ?_ ?_
    · show deleteRows _ none (rawQueryIds tbl (n * s) ((n + 1) * s)) = _
      rw [deleteRows, List.filter_filter]
      apply List.filter_congr
      intro r _
      show (!(decide (r.history_id ∈ rawQueryIds tbl (n * s) ((n + 1) * s)) &&
        inWindow none r) && !(decide (r.history_id ∈ delIdsUpTo tbl s n))) =
        !(decide (r.history_id ∈ delIdsUpTo tbl s (n + 1)))
      rw [show inWindow none r = true from rfl, Bool.and_true, delIdsUpTo_succ]
      by_cases h1 : r.history_id ∈ delIdsUpTo tbl s n <;>
        by_cases h2 : r.history_id ∈ rawQueryIds tbl (n * s) ((n + 1) * s) <;>
        simp [h1, h2]
    · show (delIdsUpTo tbl s n).length + _ = _
      rw [delIdsUpTo_succ, List.length_append]

/-- The block loop of a dry run never changes the table and adds each block's
candidate count against the fixed table. -/
theorem runBatches_dry_fold (tbl : List VersionRecord) (cutoff : Option Nat) (s : Nat) :
    ∀ (xs : List Nat) (k : Nat),
      xs.foldl (batchStep cutoff true s) (tbl, k) =
        (tbl, k + (xs.flatMap fun x => rawQueryIds tbl (x * s) ((x + 1) * s)).length) := by
  intro xs
  induction xs with
  | nil => intro k; simp
  | cons x xs ih =>
    intro k
    rw [List.foldl_cons]
    have hstep : batchStep cutoff true s (tbl, k) x =
        (tbl, k + (rawQueryIds tbl (x * s) ((x + 1) * s)).length) := by
      simp [batchStep]
    rw [hstep, ih]
    simp [List.flatMap_cons, Nat.add_assoc]

/-- C6, amended: with no time cutoff and distinct version ids, a dry run
leaves the table unchanged, reports the same count a non-dry run reports, and
that count is exactly the number of rows the non-dry run removes. -/
theorem c6_dry_run_equiv (tbl : List VersionRecord) (s : Nat)
    (hnd : (tbl.map fun r => r.history_id).Nodup) :
    (runModel tbl none true s).1 = tbl ∧
    (runModel tbl none true s).2 = (runModel tbl none false s).2 ∧
    (runModel tbl none true s).2 = tbl.length - (runModel tbl none false s).1.length := by
  by_cases h0 : (filteredRows tbl none).length = 0
  · simp only [runModel]
    rw [if_pos h0, if_pos h0]
    simp
  · simp only [runModel]
    rw [if_neg h0, if_neg h0]
    rw [runBatches_dry_fold tbl none s _ 0]
    rw [runBatches_fold tbl s hnd]
    have hD_nodup := delIdsUpTo_nodup tbl s
      (maxIterations (maxEntityId (filteredRows tbl none)) s + 1) hnd
    have hD_ex : ∀ i ∈ delIdsUpTo tbl s
        (maxIterations (maxEntityId (filteredRows tbl none)) s + 1),
        i ∈ tbl.map fun r => r.history_id := by
      intro i hi
      rcases delIdsUpTo_mem tbl s _ hi with ⟨r, hr, hpk, _⟩
      rw [← hpk]
      exact List.mem_map_of_mem _ hr
    have hcnt := length_filter_mem tbl
      (delIdsUpTo tbl s (maxIterations (maxEntityId (filteredRows tbl none)) s + 1))
      hnd hD_nodup hD_ex
    have hlen := length_filter_not tbl fun r => decide (r.history_id ∈
      delIdsUpTo tbl s (maxIterations (maxEntityId (filteredRows tbl none)) s + 1))
    have hle := List.length_filter_le (fun r => decide (r.history_id ∈
      delIdsUpTo tbl s (maxIterations (maxEntityId (filteredRows tbl none)) s + 1))) tbl
    refine ⟨rfl, ?_, ?_⟩
    · show 0 + (delIdsUpTo tbl s
          (maxIterations (maxEntityId (filteredRows tbl none)) s + 1)).length =
        (delIdsUpTo tbl s
          (maxIterations (maxEntityId (filteredRows tbl none)) s + 1)).length
      exact Nat.zero_add _
    · show 0 + (delIdsUpTo tbl s
          (maxIterations (maxEntityId (filteredRows tbl none)) s + 1)).length =
        tbl.length - (tbl.filter fun r => !(decide (r.history_id ∈ delIdsUpTo tbl s
          (maxIterations (maxEntityId (filteredRows tbl none)) s + 1)))).length
      rw [hlen, hcnt]
      omega

/-- C6, witness for the amended theorem at the concrete table `tblW6`. -/
theorem c6_dry_run_equiv_witness :
    ((tblW6.map fun r => r.history_id).Nodup) ∧
    ((runModel tblW6 none true 100000).1 = tblW6 ∧
     (runModel tblW6 none true 100000).2 = (runModel tblW6 none false 100000).2 ∧
     (runModel tblW6 none true 100000).2 =
       tblW6.length - (runModel tblW6 none false 100000).1.length) :=
  ⟨by decide, c6_dry_run_equiv tblW6 100000 (by decide)⟩

end CleanDuplicateHistory
